import Mathlib

/-!
Verification development for the VOICEVOX intonation-dictionary server
(`server/app/services/audio_query_service.py`, `server/app/services/matcher.py`,
`server/app/routers/synthesis.py`).

Shallow embedding conventions:
* Python strings are `List Char` (`Str`), floats are `ℚ` (values are only
  copied around, never computed with), `None`-able fields are `Option`.
* The dynamic AudioQuery dict is modelled as a typed record carrying the
  fields the code reads or writes (`accent_phrases`, `moras`, `text`,
  `pitch`, `vowel_length`) together with the pass-through fields of a
  VOICEVOX AudioQuery, so frame conditions are expressible.
* Fallible operations return `Except OverlayError _`.  The Python code
  deep-copies its argument before any write (`copy.deepcopy`), so each
  operation is observationally a pure function from the input query to
  either an error or a fresh result; the embedding reflects exactly that.
* Python's `s.find(sub, start)` builtin is embedded as `strFind`
  (lowest index `≥ start` of an occurrence), Python's `sub in s` as
  `isSubstring`, and Python's signed list indexing as `pyNorm`.
* Snake_case source names are rendered in camelCase
  (`apply_partial_match` ↦ `applyPartialMatch`, etc.).
-/

abbrev Str := List Char

/-- One mora of a VOICEVOX AudioQuery (`mora` dict).  The overlay code reads
and writes only `text`, `pitch` and `vowel_length`; the remaining fields ride
along untouched. -/
structure Mora where
  text : Str
  consonant : Option Str
  consonantLength : Option ℚ
  vowel : Str
  vowelLength : ℚ
  pitch : ℚ
deriving DecidableEq

instance : Inhabited Mora := ⟨⟨[], none, none, [], 0, 0⟩⟩

/-- One accent phrase (`accent_phrase` dict): its mora list plus pass-through
fields. -/
structure AccentPhrase where
  moras : List Mora
  accent : Int
  pauseMora : Option Mora
  isInterrogative : Bool
deriving DecidableEq

instance : Inhabited AccentPhrase := ⟨⟨[], 0, none, false⟩⟩

/-- A VOICEVOX AudioQuery: accent phrases plus global scalar controls, all of
which the overlay engine passes through untouched. -/
structure AudioQuery where
  accentPhrases : List AccentPhrase
  speedScale : ℚ
  pitchScale : ℚ
  intonationScale : ℚ
  volumeScale : ℚ
  prePhonemeLength : ℚ
  postPhonemeLength : ℚ
  outputSamplingRate : Int
  outputStereo : Bool
  kana : Str
deriving DecidableEq

/-- Model of `ExtendedDictEntry` (`app/models/extended_dict.py`).  Pydantic enforces
`min_length=1` on `word` and `pronunciation`; that constraint is stated as a
hypothesis where a theorem needs it.  The optional nested `accent_phrases`
payload is carried by no code path treated here and is omitted. -/
structure DictEntry where
  word : Str
  pronunciation : Str
  accentType : Int
  moraCount : Option Int
  pitchValues : Option (List ℚ)
  lengthValues : Option (List ℚ)
  speakerId : Option Int
deriving DecidableEq

/-- The `MatchResult` dataclass (`matcher.py`). -/
structure MatchResult where
  entry : DictEntry
  accentPhraseIndex : Nat
  moraStartIndex : Nat
  moraEndIndex : Nat
deriving DecidableEq

/-- Error outcomes of the overlay engine.  `invalidAccentPhraseIndex` and
`invalidMoraRange` are the two `ValueError`s the spec calls RangeError;
`countMismatch` is the スモーラ数が一致しません `ValueError`; `indexError` models a
raw Python `IndexError` from list subscripting (reachable only for an index
below `-len`). -/
inductive OverlayError where
  | invalidAccentPhraseIndex : Int → OverlayError
  | invalidMoraRange : Int → Int → Int → OverlayError
  | countMismatch : Nat → Int → OverlayError
  | indexError : OverlayError
deriving DecidableEq

instance {ε α : Type} [DecidableEq ε] [DecidableEq α] : DecidableEq (Except ε α) := fun a b =>
  match a, b with
  | .ok x, .ok y =>
    if h : x = y then isTrue (by subst h; rfl) else isFalse (fun he => h (by injection he))
  | .error x, .error y =>
    if h : x = y then isTrue (by subst h; rfl) else isFalse (fun he => h (by injection he))
  | .ok _, .error _ => isFalse (fun he => nomatch he)
  | .error _, .ok _ => isFalse (fun he => nomatch he)

/-- The spec's RangeError kind: either bounds check of `apply_partial_match`. -/
def OverlayError.isRangeErr : OverlayError → Bool
  | .invalidAccentPhraseIndex _ => true
  | .invalidMoraRange _ _ _ => true
  | _ => false

/-- The spec's CountMismatch kind. -/
def OverlayError.isCountMismatch : OverlayError → Bool
  | .countMismatch _ _ => true
  | _ => false

/-- Python's normalization of a signed list index: negative indices count from
the end. -/
def pyNorm (len : Nat) (i : Int) : Int :=
  if i < 0 then (len : Int) + i else i

/-- Functional rendering of the Python write loop
`for i, v in enumerate(vals): moras[start + i][field] = v`:
overwrite successive elements starting at position `start` with `upd m v`. -/
def overwriteFrom (upd : Mora → ℚ → Mora) : List Mora → Nat → List ℚ → List Mora
  | [], _, _ => []
  | m :: ms, 0, [] => m :: ms
  | m :: ms, 0, v :: vs => upd m v :: overwriteFrom upd ms 0 vs
  | m :: ms, k + 1, vs => m :: overwriteFrom upd ms k vs

/-- One override stage of `apply_partial_match` (`audio_query_service.py`
lines 232-250): skip when the list is absent or empty, fail on a length
mismatch against `target`, otherwise write the values into
`[start, start + len)`. -/
def writeStage (vals? : Option (List ℚ)) (upd : Mora → ℚ → Mora)
    (moras : List Mora) (start : Nat) (target : Int) :
    Except OverlayError (List Mora) :=
  let vs := vals?.getD []
  if vs.isEmpty then .ok moras
  else if (vs.length : Int) ≠ target then .error (.countMismatch vs.length target)
  else .ok (overwriteFrom upd moras start vs)

/-- Field update written by the pitch stage. -/
def setPitch (m : Mora) (v : ℚ) : Mora := { m with pitch := v }

/-- Field update written by the duration stage. -/
def setVowelLength (m : Mora) (v : ℚ) : Mora := { m with vowelLength := v }

/-- Embedding of `AudioQueryService.apply_partial_match` (`audio_query_service.py`
lines 189-252).  The Python code deep-copies the query, checks
`accent_phrase_index >= len(accent_phrases)`, subscripts the accent-phrase
list (Python signed indexing — a negative index wraps from the end), checks
`mora_start_index < 0 or mora_end_index > len(moras)`, then runs the pitch
stage and the length stage, each a no-op for an absent/empty list, a
`ValueError` on length mismatch with `mora_end_index - mora_start_index`,
and an in-place write of the values otherwise. -/
def applyPartialMatch (q : AudioQuery) (entry : DictEntry)
    (apIdx mStart mEnd : Int) : Except OverlayError AudioQuery :=
  let aps := q.accentPhrases
  if (aps.length : Int) ≤ apIdx then .error (.invalidAccentPhraseIndex apIdx)
  else
    let j := pyNorm aps.length apIdx
    if 0 ≤ j ∧ j < (aps.length : Int) then
      let k := j.toNat
      let ap := aps.getD k default
      let moras := ap.moras
      let target : Int := mEnd - mStart
      if mStart < 0 ∨ (moras.length : Int) < mEnd then
        .error (.invalidMoraRange mStart mEnd (moras.length : Int))
      else
        match writeStage entry.pitchValues setPitch moras mStart.toNat target with
        | .error e => .error e
        | .ok moras1 =>
          match writeStage entry.lengthValues setVowelLength moras1 mStart.toNat target with
          | .error e => .error e
          | .ok moras2 =>
            .ok { q with accentPhrases := aps.set k { ap with moras := moras2 } }
    else .error .indexError

/-- Embedding of `AudioQueryService._get_total_mora_count`. -/
def totalMoraCount (q : AudioQuery) : Nat :=
  (q.accentPhrases.map (fun ap => ap.moras.length)).sum

/-- The inner mora loop of `apply_pitch_values` / `apply_length_values`
(lines 86-93 / 138-145): thread the global mora counter `midx` and the value
cursor `vidx` through one phrase's moras, writing `vals[vidx]` whenever
`start ≤ midx` and `vidx < len(vals)`. -/
def gwMoras (upd : Mora → ℚ → Mora) (vals : List ℚ) (startIdx : Int) :
    List Mora → Nat → Nat → List Mora × Nat × Nat
  | [], midx, vidx => ([], midx, vidx)
  | m :: ms, midx, vidx =>
    if startIdx ≤ (midx : Int) ∧ vidx < vals.length then
      let r := gwMoras upd vals startIdx ms (midx + 1) (vidx + 1)
      (upd m (vals.getD vidx 0) :: r.1, r.2)
    else
      let r := gwMoras upd vals startIdx ms (midx + 1) vidx
      (m :: r.1, r.2)

/-- The outer phrase loop of `apply_pitch_values` / `apply_length_values`. -/
def gwPhrases (upd : Mora → ℚ → Mora) (vals : List ℚ) (startIdx : Int) :
    List AccentPhrase → Nat → Nat → List AccentPhrase × Nat × Nat
  | [], midx, vidx => ([], midx, vidx)
  | ap :: aps, midx, vidx =>
    let r := gwMoras upd vals startIdx ap.moras midx vidx
    let r2 := gwPhrases upd vals startIdx aps r.2.1 r.2.2
    ({ ap with moras := r.1 } :: r2.1, r2.2)

/-- Embedding of `AudioQueryService.apply_pitch_values` (lines 48-95): empty list returns
an unchanged copy; otherwise the list length must equal
`total_moras - start_mora_index` or a count-mismatch `ValueError` is raised;
on success the values are written into the pitch fields walking all phrases
and moras in document order, skipping moras before the start index. -/
def applyPitchValues (q : AudioQuery) (vals : List ℚ) (startIdx : Int) :
    Except OverlayError AudioQuery :=
  if vals.isEmpty then .ok q
  else
    let total := totalMoraCount q
    let available : Int := (total : Int) - startIdx
    if (vals.length : Int) ≠ available then
      .error (.countMismatch vals.length available)
    else
      .ok { q with
        accentPhrases := (gwPhrases setPitch vals startIdx q.accentPhrases 0 0).1 }

/-- Embedding of `AudioQueryService.apply_length_values` (lines 97-147): identical control
flow to `applyPitchValues`, writing the vowel-duration field instead. -/
def applyLengthValues (q : AudioQuery) (vals : List ℚ) (startIdx : Int) :
    Except OverlayError AudioQuery :=
  if vals.isEmpty then .ok q
  else
    let total := totalMoraCount q
    let available : Int := (total : Int) - startIdx
    if (vals.length : Int) ≠ available then
      .error (.countMismatch vals.length available)
    else
      .ok { q with
        accentPhrases := (gwPhrases setVowelLength vals startIdx q.accentPhrases 0 0).1 }

/-- Scanning loop of Python's `s.find(pat, start)`, written with explicit
fuel so it is structural recursion (the wrapper `strFind` supplies exactly
the fuel the scan can consume, so the `0` case is unreachable). -/
def strFindAux : Nat → Str → Str → Nat → Option Nat
  | 0, _, _, _ => none
  | n + 1, s, pat, start =>
    if start + pat.length ≤ s.length then
      if (s.drop start).take pat.length = pat then some start
      else strFindAux n s pat (start + 1)
    else none

/-- Python's `s.find(pat, start)` builtin: the lowest index `p ≥ start` with
`s[p : p + len(pat)] == pat`, or `none`.  (`find` of the empty pattern
returns `start` while `start ≤ len(s)`, exactly as in Python.) -/
def strFind (s pat : Str) (start : Nat) : Option Nat :=
  strFindAux (s.length + 1 - start) s pat start

/-- Python's `pat in s` substring test. -/
def isSubstring (pat s : Str) : Bool := (strFind s pat 0).isSome

/-- Holds when `pat` occurs in `s` at character position `p`. -/
def OccursAt (s pat : Str) (p : Nat) : Prop := (s.drop p).take pat.length = pat

instance (s pat : Str) (p : Nat) : Decidable (OccursAt s pat p) := by
  unfold OccursAt; infer_instance

theorem strFindAux_some_spec (s pat : Str) :
    ∀ n start p, strFindAux n s pat start = some p →
      start ≤ p ∧ p + pat.length ≤ s.length ∧ OccursAt s pat p := by
  intro n
  induction n with
  | zero => intro start p h; simp [strFindAux] at h
  | succ n ih =>
    intro start p h
    rw [strFindAux] at h
    by_cases hle : start + pat.length ≤ s.length
    · simp only [hle, if_true] at h
      by_cases hocc : (s.drop start).take pat.length = pat
      · simp only [hocc, if_true, Option.some.injEq] at h
        subst h
        exact ⟨le_refl _, hle, hocc⟩
      · simp only [hocc, if_false] at h
        have := ih (start + 1) p h
        exact ⟨by omega, this.2.1, this.2.2⟩
    · simp [hle] at h

theorem strFind_some_spec (s pat : Str) (start p : Nat)
    (h : strFind s pat start = some p) :
    start ≤ p ∧ p + pat.length ≤ s.length ∧ OccursAt s pat p :=
  strFindAux_some_spec s pat (s.length + 1 - start) start p h

theorem strFindAux_some_min (s pat : Str) :
    ∀ n start p, strFindAux n s pat start = some p →
      ∀ u, start ≤ u → OccursAt s pat u → p ≤ u := by
  intro n
  induction n with
  | zero => intro start p h; simp [strFindAux] at h
  | succ n ih =>
    intro start p h
    rw [strFindAux] at h
    by_cases hle : start + pat.length ≤ s.length
    · simp only [hle, if_true] at h
      by_cases hocc : (s.drop start).take pat.length = pat
      · simp only [hocc, if_true, Option.some.injEq] at h
        subst h
        intro u hu _
        exact hu
      · simp only [hocc, if_false] at h
        intro u hu huo
        have hne : u ≠ start := by
          intro he; subst he; exact hocc huo
        exact ih (start + 1) p h u (by omega) huo
    · simp [hle] at h

theorem strFind_some_min (s pat : Str) (start p : Nat)
    (h : strFind s pat start = some p) :
    ∀ u, start ≤ u → OccursAt s pat u → p ≤ u :=
  strFindAux_some_min s pat (s.length + 1 - start) start p h

theorem strFindAux_none_spec (s pat : Str) :
    ∀ n start, s.length + 1 - start ≤ n → strFindAux n s pat start = none →
      ∀ u, start ≤ u → u + pat.length ≤ s.length → ¬ OccursAt s pat u := by
  intro n
  induction n with
  | zero =>
    intro start hn _ u hu hul
    omega
  | succ n ih =>
    intro start hn h
    rw [strFindAux] at h
    by_cases hle : start + pat.length ≤ s.length
    · simp only [hle, if_true] at h
      by_cases hocc : (s.drop start).take pat.length = pat
      · simp [hocc] at h
      · simp only [hocc, if_false] at h
        intro u hu hul huo
        rcases Nat.eq_or_lt_of_le hu with he | hlt
        · subst he; exact hocc huo
        · exact ih (start + 1) (by omega) h u hlt hul huo
    · intro u hu hul
      omega

theorem strFind_none_spec (s pat : Str) (start : Nat)
    (h : strFind s pat start = none) :
    ∀ u, start ≤ u → u + pat.length ≤ s.length → ¬ OccursAt s pat u :=
  strFindAux_none_spec s pat (s.length + 1 - start) start (le_refl _) h

/-- The mora-start conversion loop of `find_matches_with_text`
(`matcher.py` lines 252-258): walk the mora texts accumulating character
counts; return the index whose starting offset equals `pos`, defaulting to
`0` when no offset matches (the Python loop leaves `mora_start = 0` then). -/
def moraStartAux : List Str → Nat → Nat → Nat → Nat
  | [], _, _, _ => 0
  | t :: ts, i, cc, pos => if cc = pos then i else moraStartAux ts (i + 1) (cc + t.length) pos

/-- Entry point of the mora-start loop: index and character count start at 0. -/
def moraStartOf (texts : List Str) (pos : Nat) : Nat := moraStartAux texts 0 0 pos

/-- The mora-end conversion loop (`matcher.py` lines 260-267): starting at
`mora_start`, accumulate text lengths, setting `mora_end := i + 1` each step,
and stop as soon as the accumulated length reaches the pronunciation length.
`me` carries the current `mora_end` (returned when the list is exhausted). -/
def moraEndAux : List Str → Nat → Nat → Nat → Nat → Nat
  | [], _, _, _, me => me
  | t :: ts, i, cnt, plen, _ =>
    if plen ≤ cnt + t.length then i + 1
    else moraEndAux ts (i + 1) (cnt + t.length) plen (i + 1)

/-- Entry point of the mora-end loop (`for i in range(mora_start, len)`). -/
def moraEndOf (texts : List Str) (mstart plen : Nat) : Nat :=
  moraEndAux (texts.drop mstart) mstart 0 plen mstart

/-- The `while True` scan of `find_matches_with_text` (`matcher.py` lines
243-282) for one (phrase, entry) pair: find the next occurrence of the
pronunciation at or after `searchStart`, convert it to a mora range, keep it
only if the reconstructed text equals the pronunciation, and continue just
past the found occurrence.  The `pron = []` guard is the callers'
`if not pronunciation: continue` hoisted in (the Python loop would not
terminate on an empty pronunciation). -/
def scanAux : Nat → List Str → Str → Str → Nat → List (Nat × Nat)
  | 0, _, _, _, _ => []
  | n + 1, texts, s, pron, searchStart =>
    if pron.isEmpty then []
    else
      match strFind s pron searchStart with
      | none => []
      | some pos =>
        let ms := moraStartOf texts pos
        let me := moraEndOf texts ms pron.length
        let matched := ((texts.drop ms).take (me - ms)).flatten
        let rest := scanAux n texts s pron (pos + pron.length)
        if matched = pron then (ms, me) :: rest else rest

/-- Entry point of the per-(phrase, entry) scan: the fuel `s.length + 1`
strictly dominates the number of loop iterations (`search_start` strictly
increases and the loop exits once it passes `len(s)`), so `scanEntry`
computes exactly what the Python `while True` loop does. -/
def scanEntry (texts : List Str) (s pron : Str) : List (Nat × Nat) :=
  scanAux (s.length + 1) texts s pron 0

/-- Concatenation of the mora texts of a phrase
(the join of `mora.get("text", "")` over the moras). -/
def phrasePronOf (moras : List Mora) : Str := (moras.map (fun m => m.text)).flatten

/-- Embedding of `DictionaryMatcher.find_matches` (`matcher.py` lines 82-161): exact
whole-phrase matching.  The Python code groups the entries into an
insertion-ordered map keyed by pronunciation and looks each phrase string up
in it; since that lookup yields exactly the entries whose pronunciation
equals the phrase string, in entry-list order, the grouping is embedded as a
filter. -/
def findMatches (q : AudioQuery) (entries : List DictEntry) : List MatchResult :=
  if entries.isEmpty then []
  else if q.accentPhrases.isEmpty then []
  else
    (q.accentPhrases.enum.map (fun p =>
      if p.2.moras.isEmpty then []
      else
        (entries.filter (fun e => e.pronunciation = phrasePronOf p.2.moras)).map
          (fun e => MatchResult.mk e p.1 0 p.2.moras.length))).flatten

/-- Embedding of `DictionaryMatcher.find_matches_with_text` (`matcher.py` lines 163-284):
filter the entries by word-occurs-in-input-text, then scan each phrase for
each surviving entry. -/
def findMatchesWithText (q : AudioQuery) (entries : List DictEntry)
    (inputText : Str) : List MatchResult :=
  if entries.isEmpty ∨ inputText.isEmpty then []
  else if q.accentPhrases.isEmpty then []
  else
    let filtered := entries.filter (fun e => isSubstring e.word inputText)
    if filtered.isEmpty then []
    else
      (q.accentPhrases.enum.map (fun p =>
        if p.2.moras.isEmpty then []
        else
          let texts := p.2.moras.map (fun m => m.text)
          (filtered.map (fun e =>
            if e.pronunciation.isEmpty then []
            else
              (scanEntry texts texts.flatten e.pronunciation).map
                (fun pr => MatchResult.mk e p.1 pr.1 pr.2))).flatten)).flatten

/-- The overlay loop shared by the synthesis orchestrators
(`synthesis.py` lines 116-132 and 286-302): apply each match in order to the
running query; a `ValueError` from one application is skipped and processing
continues with the query as previously modified.  Returns the final query,
the number of successful applications, and the words applied (in order). -/
def overlayLoop : AudioQuery → List MatchResult → AudioQuery × Nat × List Str
  | q, [] => (q, 0, [])
  | q, m :: ms =>
    match applyPartialMatch q m.entry (m.accentPhraseIndex : Int)
        (m.moraStartIndex : Int) (m.moraEndIndex : Int) with
    | .ok q' =>
      let r := overlayLoop q' ms
      (r.1, r.2.1 + 1, m.entry.word :: r.2.2)
    | .error _ => overlayLoop q ms

/-- Dictionary-application core of `synthesize_with_extended_dict`
(`synthesis.py` lines 111-145), between the two external engine calls:
match in partial mode, overlay each match (skipping failures), and report
`len(matches)` in the `X-Matches-Found` header.  Result:
(modified query, reported header count, successfully applied count). -/
def synthesizeCore (q : AudioQuery) (entries : List DictEntry) (text : Str) :
    AudioQuery × Nat × Nat :=
  let found := findMatchesWithText q entries text
  let r := overlayLoop q found
  (r.1, found.length, r.2.1)

/-- Core of the overlay-only endpoint `apply_dictionary` (`synthesis.py`
lines 262-308): with an empty dictionary the original query is returned with
zero matches and no applied entries; otherwise matches are computed and
overlaid with per-match failures skipped, and the response carries
`len(matches)` and the applied words. -/
def applyDictionaryCore (q : AudioQuery) (entries : List DictEntry)
    (text : Str) : AudioQuery × Nat × List Str :=
  if entries.isEmpty then (q, 0, [])
  else
    let found := findMatchesWithText q entries text
    let r := overlayLoop q found
    (r.1, found.length, r.2.2)

/-! Concrete sample data shared by witnesses and counterexamples. -/

/-- A mora with a one-character transcription and default acoustic values. -/
def mkMora (c : Char) : Mora := ⟨[c], none, none, [c], 1, 5⟩

/-- An accent phrase built from one-character moras. -/
def mkPhrase (cs : Str) : AccentPhrase := ⟨cs.map mkMora, 1, none, false⟩

/-- A query built from phrases of one-character moras, with typical global
controls. -/
def mkQuery (css : List Str) : AudioQuery :=
  ⟨css.map mkPhrase, 1, 0, 1, 1, 1, 1, 24000, false, []⟩

/-- A dictionary entry with the given word, pronunciation and override
lists. -/
def mkEntry (w p : Str) (pv lv : Option (List ℚ)) : DictEntry :=
  ⟨w, p, 3, none, pv, lv, none⟩

def zundamonWord : Str := ['ず', 'ん', 'だ', 'も', 'ん']

def zundamonPron : Str := ['ズ', 'ン', 'ダ', 'モ', 'ン']

/-! Small list lemmas used by the frame and characterization proofs. -/

theorem get?_set_self {α : Type} (l : List α) :
    ∀ (k : Nat) (a : α), k < l.length → (l.set k a).get? k = some a := by
  induction l with
  | nil => intro k a h; simp at h
  | cons x xs ih =>
    intro k a h
    cases k with
    | zero => rfl
    | succ k => simpa using ih k a (by simpa using h)

theorem get?_set_other {α : Type} (l : List α) :
    ∀ (k j : Nat) (a : α), j ≠ k → (l.set k a).get? j = l.get? j := by
  induction l with
  | nil => intro k j a _; simp
  | cons x xs ih =>
    intro k j a h
    cases k with
    | zero =>
      cases j with
      | zero => exact absurd rfl h
      | succ j => rfl
    | succ k =>
      cases j with
      | zero => rfl
      | succ j => simpa using ih k j a (by omega)

theorem getD_of_get? {α : Type} (l : List α) :
    ∀ (k : Nat) (d a : α), l.get? k = some a → l.getD k d = a := by
  induction l with
  | nil => intro k d a h; simp at h
  | cons x xs ih =>
    intro k d a h
    cases k with
    | zero => simp at h; simpa [List.getD] using h
    | succ k => simpa [List.getD] using ih k d a (by simpa using h)

theorem get?_of_lt {α : Type} (l : List α) :
    ∀ (k : Nat), k < l.length → ∃ a, l.get? k = some a := by
  induction l with
  | nil => intro k h; simp at h
  | cons x xs ih =>
    intro k h
    cases k with
    | zero => exact ⟨x, rfl⟩
    | succ k => simpa using ih k (by simpa using h)

/-! ## C1: range validation of `apply_partial_match` -/

/-- C1 (counterexample): the claim that `apply_partial_match` fails with a
RangeError for *every* segment index outside `[0, number of segments)` is
false: the code only checks `accent_phrase_index >= len(accent_phrases)`,
so the negative index `-1` — outside `[0, 1)` for this one-segment query —
passes the check, wraps around Python-style to the last segment, and the
call succeeds. -/
theorem c1_counterexample :
    (-1 : Int) < 0 ∧
    applyPartialMatch (mkQuery [['ア']]) (mkEntry ['a'] ['ア'] none none) (-1) 0 1 =
      .ok (mkQuery [['ア']]) := by decide

/-- C1 (amended): with a *non-negative* segment index, `apply_partial_match`
fails with a RangeError whenever the segment index is at least the number of
segments, or `unit_start < 0`, or `unit_end` exceeds the target segment's
unit count.  (The function is pure: on failure nothing but the error is
produced, so the input query is untouched — in the source this is the
`copy.deepcopy` taken before any write.)  Negative indices are the corrected
part: they wrap Python-style instead of failing (`c1_counterexample`). -/
theorem c1_range_error (q : AudioQuery) (e : DictEntry) (i s t : Int)
    (hi : 0 ≤ i)
    (hbad : (q.accentPhrases.length : Int) ≤ i ∨ s < 0 ∨
      (∀ ap, q.accentPhrases.get? i.toNat = some ap → (ap.moras.length : Int) < t)) :
    ∃ err, applyPartialMatch q e i s t = .error err ∧ err.isRangeErr = true := by
  unfold applyPartialMatch
  by_cases h1 : (q.accentPhrases.length : Int) ≤ i
  · exact ⟨.invalidAccentPhraseIndex i, by rw [if_pos h1], rfl⟩
  · have hj : pyNorm q.accentPhrases.length i = i := by
      unfold pyNorm
      rw [if_neg (by omega)]
    have hk : i.toNat < q.accentPhrases.length := by omega
    obtain ⟨ap, hap⟩ := get?_of_lt q.accentPhrases i.toNat hk
    have hgd : q.accentPhrases.getD i.toNat default = ap :=
      getD_of_get? q.accentPhrases i.toNat default ap hap
    have hrange : s < 0 ∨ (ap.moras.length : Int) < t := by
      rcases hbad with hb | hb | hb
      · exact absurd hb h1
      · exact Or.inl hb
      · exact Or.inr (hb ap hap)
    refine ⟨.invalidMoraRange s t (ap.moras.length : Int), ?_, rfl⟩
    rw [if_neg h1]
    simp only [hj, hgd]
    rw [if_pos (show (0 : Int) ≤ i ∧ i < (q.accentPhrases.length : Int) by
      exact ⟨hi, by omega⟩)]
    rw [if_pos hrange]

/-- Witness for `c1_range_error` at a concrete input: segment index 5 in a
one-segment query. -/
theorem c1_range_error_witness :
    ∃ err, applyPartialMatch (mkQuery [['ア']]) (mkEntry ['a'] ['ア'] none none) 5 0 1 =
      .error err ∧ err.isRangeErr = true :=
  c1_range_error (mkQuery [['ア']]) (mkEntry ['a'] ['ア'] none none) 5 0 1
    (by decide) (Or.inl (by decide))

/-! ## C2: count-mismatch validation of `apply_partial_match` -/

theorem isEmpty_false_of_ne {α : Type} (l : List α) (h : l ≠ []) :
    l.isEmpty = false := by
  cases l with
  | nil => exact absurd rfl h
  | cons x xs => rfl

theorem writeStage_mismatch (vals? : Option (List ℚ)) (upd : Mora → ℚ → Mora)
    (moras : List Mora) (start : Nat) (target : Int)
    (hne : vals?.getD [] ≠ []) (hlen : ((vals?.getD []).length : Int) ≠ target) :
    writeStage vals? upd moras start target =
      .error (.countMismatch (vals?.getD []).length target) := by
  simp only [writeStage]
  rw [isEmpty_false_of_ne _ hne]
  simp only [Bool.false_eq_true, if_false]
  rw [if_pos hlen]

theorem writeStage_ok_of_empty (vals? : Option (List ℚ)) (upd : Mora → ℚ → Mora)
    (moras : List Mora) (start : Nat) (target : Int)
    (he : vals?.getD [] = []) :
    writeStage vals? upd moras start target = .ok moras := by
  simp only [writeStage, he]
  rfl

theorem writeStage_ok_of_match (vals? : Option (List ℚ)) (upd : Mora → ℚ → Mora)
    (moras : List Mora) (start : Nat) (target : Int)
    (hne : vals?.getD [] ≠ []) (hlen : ((vals?.getD []).length : Int) = target) :
    writeStage vals? upd moras start target =
      .ok (overwriteFrom upd moras start (vals?.getD [])) := by
  simp only [writeStage]
  rw [isEmpty_false_of_ne _ hne]
  simp only [Bool.false_eq_true, if_false]
  rw [if_neg (by omega)]

/-- C2: on coordinates that pass the range checks, a non-empty pitch (or
duration) override list whose length differs from `unit_end - unit_start`
makes `apply_partial_match` fail with the count-mismatch error.  The input
query is returned untouched on failure: the function deep-copies before
writing and the error carries no query at all, which the pure embedding
reflects (an `Except.error` result). -/
theorem c2_count_mismatch (q : AudioQuery) (e : DictEntry) (i s t : Int)
    (ap : AccentPhrase)
    (hi : 0 ≤ i) (hlen : i < (q.accentPhrases.length : Int))
    (hap : q.accentPhrases.get? i.toNat = some ap)
    (hs : 0 ≤ s) (ht : t ≤ (ap.moras.length : Int))
    (hmis :
      (e.pitchValues.getD [] ≠ [] ∧ ((e.pitchValues.getD []).length : Int) ≠ t - s) ∨
      (e.lengthValues.getD [] ≠ [] ∧ ((e.lengthValues.getD []).length : Int) ≠ t - s)) :
    ∃ got tgt, applyPartialMatch q e i s t = .error (.countMismatch got tgt) := by
  have h1 : ¬ (q.accentPhrases.length : Int) ≤ i := by omega
  have hj : pyNorm q.accentPhrases.length i = i := by
    unfold pyNorm
    rw [if_neg (by omega)]
  have hgd : q.accentPhrases.getD i.toNat default = ap :=
    getD_of_get? q.accentPhrases i.toNat default ap hap
  unfold applyPartialMatch
  rw [if_neg h1]
  simp only [hj, hgd]
  rw [if_pos (show (0 : Int) ≤ i ∧ i < (q.accentPhrases.length : Int) from ⟨hi, hlen⟩)]
  rw [if_neg (show ¬ (s < 0 ∨ (ap.moras.length : Int) < t) by push_neg; exact ⟨hs, ht⟩)]
  rcases hmis with ⟨hne, hply⟩ | ⟨hne, hlly⟩
  · simp only [writeStage_mismatch e.pitchValues setPitch ap.moras s.toNat (t - s) hne hply]
    exact ⟨_, _, rfl⟩
  · by_cases hpe : e.pitchValues.getD [] = []
    · simp only [writeStage_ok_of_empty e.pitchValues setPitch ap.moras s.toNat (t - s) hpe,
        writeStage_mismatch e.lengthValues setVowelLength ap.moras s.toNat (t - s) hne hlly]
      exact ⟨_, _, rfl⟩
    · by_cases hpl : ((e.pitchValues.getD []).length : Int) = t - s
      · simp only [writeStage_ok_of_match e.pitchValues setPitch ap.moras s.toNat (t - s) hpe hpl,
          writeStage_mismatch e.lengthValues setVowelLength
            (overwriteFrom setPitch ap.moras s.toNat (e.pitchValues.getD []))
            s.toNat (t - s) hne hlly]
        exact ⟨_, _, rfl⟩
      · simp only [writeStage_mismatch e.pitchValues setPitch ap.moras s.toNat (t - s) hpe hpl]
        exact ⟨_, _, rfl⟩

/-- Witness for `c2_count_mismatch`: one pitch value against a two-unit
range. -/
theorem c2_count_mismatch_witness :
    ∃ got tgt,
      applyPartialMatch (mkQuery [['ア', 'イ']]) (mkEntry ['a'] ['ア'] (some [9]) none)
        0 0 2 = .error (.countMismatch got tgt) :=
  c2_count_mismatch (mkQuery [['ア', 'イ']]) (mkEntry ['a'] ['ア'] (some [9]) none)
    0 0 2 (mkPhrase ['ア', 'イ']) (by decide) (by decide) (by decide) (by decide)
    (by decide) (Or.inl (by decide))

/-! ## C7: frame condition of `apply_partial_match` -/

theorem overwriteFrom_length (upd : Mora → ℚ → Mora) :
    ∀ (ms : List Mora) (k : Nat) (vs : List ℚ),
      (overwriteFrom upd ms k vs).length = ms.length := by
  intro ms
  induction ms with
  | nil => intro k vs; rfl
  | cons m ms ih =>
    intro k vs
    cases k with
    | zero =>
      cases vs with
      | nil => rfl
      | cons v vs => simp [overwriteFrom, ih]
    | succ k => simp [overwriteFrom, ih]

theorem overwriteFrom_get?_outside (upd : Mora → ℚ → Mora) :
    ∀ (ms : List Mora) (k : Nat) (vs : List ℚ) (u : Nat),
      u < k ∨ k + vs.length ≤ u →
      (overwriteFrom upd ms k vs).get? u = ms.get? u := by
  intro ms
  induction ms with
  | nil => intro k vs u _; rfl
  | cons m ms ih =>
    intro k vs u h
    cases k with
    | zero =>
      cases vs with
      | nil => rfl
      | cons v vs =>
        cases u with
        | zero =>
          simp only [List.length_cons] at h
          omega
        | succ u =>
          simp only [overwriteFrom, List.get?]
          exact ih 0 vs u (by simp only [List.length_cons] at h; omega)
    | succ k =>
      cases u with
      | zero => rfl
      | succ u =>
        simp only [overwriteFrom, List.get?]
        exact ih k vs u (by omega)

theorem overwriteFrom_get?_related (upd : Mora → ℚ → Mora) :
    ∀ (ms : List Mora) (k : Nat) (vs : List ℚ) (u : Nat) (m' : Mora),
      (overwriteFrom upd ms k vs).get? u = some m' →
      ∃ m, ms.get? u = some m ∧ (m' = m ∨ ∃ v, m' = upd m v) := by
  intro ms
  induction ms with
  | nil => intro k vs u m' h; simp [overwriteFrom] at h
  | cons m ms ih =>
    intro k vs u m' h
    cases k with
    | zero =>
      cases vs with
      | nil => exact ⟨m', h, Or.inl rfl⟩
      | cons v vs =>
        cases u with
        | zero =>
          simp only [overwriteFrom, List.get?] at h
          injection h with h
          exact ⟨m, rfl, Or.inr ⟨v, h.symm⟩⟩
        | succ u =>
          simp only [overwriteFrom, List.get?] at h
          exact ih 0 vs u m' h
    | succ k =>
      cases u with
      | zero =>
        simp only [overwriteFrom, List.get?] at h
        injection h with h
        exact ⟨m, rfl, Or.inl h.symm⟩
      | succ u =>
        simp only [overwriteFrom, List.get?] at h
        exact ih k vs u m' h

theorem writeStage_ok_cases (vals? : Option (List ℚ)) (upd : Mora → ℚ → Mora)
    (moras : List Mora) (start : Nat) (target : Int) (moras' : List Mora)
    (h : writeStage vals? upd moras start target = .ok moras') :
    (vals?.getD [] = [] ∧ moras' = moras) ∨
    (vals?.getD [] ≠ [] ∧ ((vals?.getD []).length : Int) = target ∧
      moras' = overwriteFrom upd moras start (vals?.getD [])) := by
  by_cases he : vals?.getD [] = []
  · rw [writeStage_ok_of_empty vals? upd moras start target he] at h
    injection h with h
    exact Or.inl ⟨he, h.symm⟩
  · by_cases hl : ((vals?.getD []).length : Int) = target
    · rw [writeStage_ok_of_match vals? upd moras start target he hl] at h
      injection h with h
      exact Or.inr ⟨he, hl, h.symm⟩
    · rw [writeStage_mismatch vals? upd moras start target he hl] at h
      exact Except.noConfusion h

theorem stage_length (vals? : Option (List ℚ)) (upd : Mora → ℚ → Mora)
    (moras : List Mora) (start : Nat) (target : Int) (moras' : List Mora)
    (h : writeStage vals? upd moras start target = .ok moras') :
    moras'.length = moras.length := by
  rcases writeStage_ok_cases vals? upd moras start target moras' h with
    ⟨_, rfl⟩ | ⟨_, _, rfl⟩
  · rfl
  · exact overwriteFrom_length upd moras start _

theorem stage_outside (vals? : Option (List ℚ)) (upd : Mora → ℚ → Mora)
    (moras : List Mora) (start : Nat) (target : Int) (moras' : List Mora)
    (h : writeStage vals? upd moras start target = .ok moras')
    (u : Nat) (hu : (u : Int) < (start : Int) ∨ (start : Int) + target ≤ (u : Int)) :
    moras'.get? u = moras.get? u := by
  rcases writeStage_ok_cases vals? upd moras start target moras' h with
    ⟨_, rfl⟩ | ⟨_, hlen, rfl⟩
  · rfl
  · exact overwriteFrom_get?_outside upd moras start _ u (by omega)

theorem stage_related (vals? : Option (List ℚ)) (upd : Mora → ℚ → Mora)
    (moras : List Mora) (start : Nat) (target : Int) (moras' : List Mora)
    (h : writeStage vals? upd moras start target = .ok moras')
    (u : Nat) (m' : Mora) (hm' : moras'.get? u = some m') :
    ∃ m, moras.get? u = some m ∧
      (m' = m ∨ (vals?.getD [] ≠ [] ∧ ∃ v, m' = upd m v)) := by
  rcases writeStage_ok_cases vals? upd moras start target moras' h with
    ⟨_, rfl⟩ | ⟨hne, _, rfl⟩
  · exact ⟨m', hm', Or.inl rfl⟩
  · obtain ⟨m, hm, hrel⟩ := overwriteFrom_get?_related upd moras start _ u m' hm'
    rcases hrel with hrel | ⟨v, hrel⟩
    · exact ⟨m, hm, Or.inl hrel⟩
    · exact ⟨m, hm, Or.inr ⟨hne, v, hrel⟩⟩

theorem applyPartialMatch_ok_shape (q : AudioQuery) (e : DictEntry) (i s t : Int)
    (q' : AudioQuery) (hi : 0 ≤ i) (h : applyPartialMatch q e i s t = .ok q') :
    ∃ ap moras1 moras2,
      i < (q.accentPhrases.length : Int) ∧
      q.accentPhrases.get? i.toNat = some ap ∧
      0 ≤ s ∧ t ≤ (ap.moras.length : Int) ∧
      writeStage e.pitchValues setPitch ap.moras s.toNat (t - s) = .ok moras1 ∧
      writeStage e.lengthValues setVowelLength moras1 s.toNat (t - s) = .ok moras2 ∧
      q' = { q with
        accentPhrases := q.accentPhrases.set i.toNat { ap with moras := moras2 } } := by
  have h1 : ¬ (q.accentPhrases.length : Int) ≤ i := by
    by_contra hc
    unfold applyPartialMatch at h
    rw [if_pos hc] at h
    exact Except.noConfusion h
  have hj : pyNorm q.accentPhrases.length i = i := by
    unfold pyNorm
    rw [if_neg (by omega)]
  obtain ⟨ap, hap⟩ := get?_of_lt q.accentPhrases i.toNat (by omega)
  have hgd : q.accentPhrases.getD i.toNat default = ap :=
    getD_of_get? q.accentPhrases i.toNat default ap hap
  unfold applyPartialMatch at h
  rw [if_neg h1] at h
  simp only [hj, hgd] at h
  rw [if_pos (show (0 : Int) ≤ i ∧ i < (q.accentPhrases.length : Int) from
    ⟨hi, by omega⟩)] at h
  by_cases hr : s < 0 ∨ (ap.moras.length : Int) < t
  · rw [if_pos hr] at h
    exact Except.noConfusion h
  · rw [if_neg hr] at h
    push_neg at hr
    cases hps : writeStage e.pitchValues setPitch ap.moras s.toNat (t - s) with
    | error e1 =>
      rw [hps] at h
      exact Except.noConfusion h
    | ok moras1 =>
      simp only [hps] at h
      cases hls : writeStage e.lengthValues setVowelLength moras1 s.toNat (t - s) with
      | error e2 =>
        rw [hls] at h
        exact Except.noConfusion h
      | ok moras2 =>
        simp only [hls] at h
        injection h with h
        exact ⟨ap, moras1, moras2, by omega, hap, hr.1, hr.2, hps, hls, h.symm⟩

/-- C7: on every success of `apply_partial_match` with a non-negative segment
index, every global query field, every segment other than the target, every
per-segment field other than the mora list, every unit outside
`[unit_start, unit_end)`, and — for every unit — the transcription,
consonant, consonant-duration and vowel fields are unchanged; a unit's pitch
can differ only when a non-empty pitch-override list is present, and its
vowel duration only when a non-empty duration-override list is present. -/
theorem c7_frame (q : AudioQuery) (e : DictEntry) (i s t : Int) (q' : AudioQuery)
    (hi : 0 ≤ i) (h : applyPartialMatch q e i s t = .ok q') :
    q'.speedScale = q.speedScale ∧ q'.pitchScale = q.pitchScale ∧
    q'.intonationScale = q.intonationScale ∧ q'.volumeScale = q.volumeScale ∧
    q'.prePhonemeLength = q.prePhonemeLength ∧
    q'.postPhonemeLength = q.postPhonemeLength ∧
    q'.outputSamplingRate = q.outputSamplingRate ∧
    q'.outputStereo = q.outputStereo ∧ q'.kana = q.kana ∧
    q'.accentPhrases.length = q.accentPhrases.length ∧
    (∀ j, j ≠ i.toNat → q'.accentPhrases.get? j = q.accentPhrases.get? j) ∧
    ∀ ap ap', q.accentPhrases.get? i.toNat = some ap →
      q'.accentPhrases.get? i.toNat = some ap' →
      ap'.accent = ap.accent ∧ ap'.pauseMora = ap.pauseMora ∧
      ap'.isInterrogative = ap.isInterrogative ∧
      ap'.moras.length = ap.moras.length ∧
      (∀ u : Nat, (u : Int) < s ∨ t ≤ (u : Int) →
        ap'.moras.get? u = ap.moras.get? u) ∧
      (∀ u m m', ap.moras.get? u = some m → ap'.moras.get? u = some m' →
        m'.text = m.text ∧ m'.consonant = m.consonant ∧
        m'.consonantLength = m.consonantLength ∧ m'.vowel = m.vowel ∧
        (e.pitchValues.getD [] = [] → m'.pitch = m.pitch) ∧
        (e.lengthValues.getD [] = [] → m'.vowelLength = m.vowelLength)) := by
  obtain ⟨ap0, moras1, moras2, hlt, hap0, hs, ht, hps, hls, hq'⟩ :=
    applyPartialMatch_ok_shape q e i s t q' hi h
  subst hq'
  have hsn : (s.toNat : Int) = s := Int.toNat_of_nonneg hs
  refine ⟨rfl, rfl, rfl, rfl, rfl, rfl, rfl, rfl, rfl, by simp, ?_, ?_⟩
  · intro j hj
    exact get?_set_other q.accentPhrases i.toNat j _ hj
  · intro ap ap' hap hap'
    rw [hap0] at hap
    injection hap with hap
    subst hap
    rw [get?_set_self q.accentPhrases i.toNat _ (by omega)] at hap'
    injection hap' with hap'
    subst hap'
    refine ⟨rfl, rfl, rfl, ?_, ?_, ?_⟩
    · exact (stage_length _ _ _ _ _ _ hls).trans (stage_length _ _ _ _ _ _ hps)
    · intro u hu
      have h2 := stage_outside _ _ _ _ _ _ hls u (by omega)
      have h1 := stage_outside _ _ _ _ _ _ hps u (by omega)
      exact h2.trans h1
    · intro u m m' hm hm'
      obtain ⟨m1, hm1, rel2⟩ := stage_related _ _ _ _ _ _ hls u m' hm'
      obtain ⟨m0, hm0, rel1⟩ := stage_related _ _ _ _ _ _ hps u m1 hm1
      rw [hm] at hm0
      injection hm0 with hm0
      subst hm0
      rcases rel2 with rfl | ⟨hlne, v2, rfl⟩ <;>
        rcases rel1 with rfl | ⟨hpne, v1, rfl⟩
      · exact ⟨rfl, rfl, rfl, rfl, fun _ => rfl, fun _ => rfl⟩
      · exact ⟨rfl, rfl, rfl, rfl, fun hc => absurd hc hpne, fun _ => rfl⟩
      · exact ⟨rfl, rfl, rfl, rfl, fun _ => rfl, fun hc => absurd hc hlne⟩
      · exact ⟨rfl, rfl, rfl, rfl, fun hc => absurd hc hpne, fun hc => absurd hc hlne⟩

/-- The result of overlaying pitch 7 onto unit 1 of a three-unit query. -/
def sampleOverlayOut : AudioQuery :=
  ⟨[⟨[mkMora 'ア', ⟨['イ'], none, none, ['イ'], 1, 7⟩, mkMora 'ウ'], 1, none, false⟩],
    1, 0, 1, 1, 1, 1, 24000, false, []⟩

/-- Witness for `c7_frame` at a concrete successful overlay. -/
theorem c7_frame_witness :
    sampleOverlayOut.speedScale = (mkQuery [['ア', 'イ', 'ウ']]).speedScale :=
  (c7_frame (mkQuery [['ア', 'イ', 'ウ']]) (mkEntry ['a'] ['ア'] (some [7]) none)
    0 1 2 sampleOverlayOut (by decide) (by decide)).1

/-! ## C8: whole-query overlay `apply_pitch_values` / `apply_length_values` -/

/-- Specification-side rendering of the spec's sentence for the whole-query
overlay: "values are written positionally into each unit's field, walking
segments and units in document order, skipping units before the starting
index" — the unit at global position `g` receives `vals[g - start]` when
`start ≤ g < start + len(vals)`. -/
def specWriteFrom (upd : Mora → ℚ → Mora) (vals : List ℚ) (sN : Nat) :
    List Mora → Nat → List Mora
  | [], _ => []
  | m :: ms, g =>
    (if sN ≤ g ∧ g - sN < vals.length then upd m (vals.getD (g - sN) 0) else m) ::
      specWriteFrom upd vals sN ms (g + 1)

/-- Phrase-level view of `specWriteFrom`: each phrase keeps its shape and its
moras are overwritten according to their global document position. -/
def specPhrasesWrite (upd : Mora → ℚ → Mora) (vals : List ℚ) (sN : Nat) :
    List AccentPhrase → Nat → List AccentPhrase
  | [], _ => []
  | ap :: aps, g =>
    { ap with moras := specWriteFrom upd vals sN ap.moras g } ::
      specPhrasesWrite upd vals sN aps (g + ap.moras.length)

theorem gwMoras_eq (upd : Mora → ℚ → Mora) (vals : List ℚ) (sN : Nat) :
    ∀ (ms : List Mora) (midx : Nat),
      midx + ms.length ≤ sN + vals.length →
      gwMoras upd vals (sN : Int) ms midx (midx - sN) =
        (specWriteFrom upd vals sN ms midx, midx + ms.length, midx + ms.length - sN) := by
  intro ms
  induction ms with
  | nil =>
    intro midx h
    simp [gwMoras, specWriteFrom]
  | cons m ms ih =>
    intro midx h
    by_cases hc : sN ≤ midx
    · have hv : midx - sN < vals.length := by
        simp only [List.length_cons] at h
        omega
      have hcast : (sN : Int) ≤ (midx : Int) := by exact_mod_cast hc
      simp only [gwMoras]
      rw [if_pos ⟨hcast, hv⟩]
      have he : midx - sN + 1 = (midx + 1) - sN := by omega
      rw [he, ih (midx + 1) (by simp only [List.length_cons] at h; omega)]
      simp only [specWriteFrom, if_pos (⟨hc, hv⟩ : sN ≤ midx ∧ midx - sN < vals.length),
        List.length_cons]
      refine Prod.ext rfl (Prod.ext ?_ ?_) <;> simp <;> omega
    · simp only [gwMoras]
      rw [if_neg (fun hand => hc (by exact_mod_cast hand.1))]
      have he : midx - sN = (midx + 1) - sN := by omega
      rw [he, ih (midx + 1) (by simp only [List.length_cons] at h; omega)]
      simp only [specWriteFrom, List.length_cons]
      rw [if_neg (fun hand => hc hand.1)]
      refine Prod.ext rfl (Prod.ext ?_ ?_) <;> simp <;> omega

theorem gwPhrases_eq (upd : Mora → ℚ → Mora) (vals : List ℚ) (sN : Nat) :
    ∀ (aps : List AccentPhrase) (midx : Nat),
      midx + (aps.map (fun ap => ap.moras.length)).sum ≤ sN + vals.length →
      gwPhrases upd vals (sN : Int) aps midx (midx - sN) =
        (specPhrasesWrite upd vals sN aps midx,
         midx + (aps.map (fun ap => ap.moras.length)).sum,
         midx + (aps.map (fun ap => ap.moras.length)).sum - sN) := by
  intro aps
  induction aps with
  | nil =>
    intro midx h
    simp [gwPhrases, specPhrasesWrite]
  | cons ap aps ih =>
    intro midx h
    simp only [List.map_cons, List.sum_cons] at h ⊢
    simp only [gwPhrases]
    rw [gwMoras_eq upd vals sN ap.moras midx (by omega)]
    rw [show midx + ap.moras.length - sN = (midx + ap.moras.length) - sN from rfl]
    rw [ih (midx + ap.moras.length) (by omega)]
    simp only [specPhrasesWrite]
    refine Prod.ext rfl (Prod.ext ?_ ?_) <;> simp <;> omega

/-- C8: for a non-negative global start index, `apply_pitch_values` and
`apply_length_values` (i) return an unchanged copy on an empty list, (ii)
fail with a count-mismatch error unless the list length equals the number of
units from the start index to the end of the query, and (iii) on success
write the values positionally into the pitch (resp. vowel-duration) fields
walking segments and units in document order, skipping units before the
start index (`specPhrasesWrite`); the spec's 2-segment example lands
`[60,61]` in segment 0 and `[62,63,64]` in segment 1. -/
theorem c8_global_values (q : AudioQuery) (vals : List ℚ) (start : Int)
    (hs : 0 ≤ start) :
    (vals = [] → applyPitchValues q vals start = .ok q ∧
                 applyLengthValues q vals start = .ok q) ∧
    (vals ≠ [] → (vals.length : Int) ≠ (totalMoraCount q : Int) - start →
      applyPitchValues q vals start =
        .error (.countMismatch vals.length ((totalMoraCount q : Int) - start)) ∧
      applyLengthValues q vals start =
        .error (.countMismatch vals.length ((totalMoraCount q : Int) - start))) ∧
    (vals ≠ [] → (vals.length : Int) = (totalMoraCount q : Int) - start →
      applyPitchValues q vals start = .ok { q with
        accentPhrases := specPhrasesWrite setPitch vals start.toNat q.accentPhrases 0 } ∧
      applyLengthValues q vals start = .ok { q with
        accentPhrases :=
          specPhrasesWrite setVowelLength vals start.toNat q.accentPhrases 0 }) ∧
    (∃ q', applyPitchValues (mkQuery [['ア', 'イ'], ['ウ', 'エ', 'オ']])
        [60, 61, 62, 63, 64] 0 = .ok q' ∧
      q'.accentPhrases.map (fun ap => ap.moras.map (fun m => m.pitch)) =
        [[60, 61], [62, 63, 64]]) := by
  have hsn : ((start.toNat : Nat) : Int) = start := Int.toNat_of_nonneg hs
  refine ⟨?_, ?_, ?_, ?_⟩
  · intro he
    subst he
    exact ⟨rfl, rfl⟩
  · intro hne hmis
    have hie := isEmpty_false_of_ne vals hne
    constructor <;>
      · simp only [applyPitchValues, applyLengthValues, hie, Bool.false_eq_true, if_false]
        rw [if_pos hmis]
  · intro hne hlen
    have hie := isEmpty_false_of_ne vals hne
    have hkey : ∀ upd : Mora → ℚ → Mora,
        (gwPhrases upd vals start q.accentPhrases 0 0).1 =
          specPhrasesWrite upd vals start.toNat q.accentPhrases 0 := by
      intro upd
      have h0 : (0 : Nat) - start.toNat = 0 := by omega
      have := gwPhrases_eq upd vals start.toNat q.accentPhrases 0
        (by
          have : totalMoraCount q = (q.accentPhrases.map (fun ap => ap.moras.length)).sum := rfl
          omega)
      rw [h0] at this
      rw [show ((start.toNat : Nat) : Int) = start from hsn] at this
      rw [this]
    constructor <;>
      · simp only [applyPitchValues, applyLengthValues, hie, Bool.false_eq_true, if_false]
        rw [if_neg (by omega)]
        rw [hkey]
  · exact ⟨_, rfl, by decide⟩

/-- Witness for `c8_global_values`: the spec's 2-segment example, obtained at
start index 0. -/
theorem c8_global_values_witness :
    ∃ q', applyPitchValues (mkQuery [['ア', 'イ'], ['ウ', 'エ', 'オ']])
        [60, 61, 62, 63, 64] 0 = .ok q' ∧
      q'.accentPhrases.map (fun ap => ap.moras.map (fun m => m.pitch)) =
        [[60, 61], [62, 63, 64]] :=
  (c8_global_values (mkQuery []) [] 0 (by decide)).2.2.2

/-! ## C4: exact whole-segment matching -/

theorem mem_enumFrom_get? {α : Type} (l : List α) :
    ∀ (n : Nat) (p : Nat × α), p ∈ l.enumFrom n →
      n ≤ p.1 ∧ l.get? (p.1 - n) = some p.2 := by
  induction l with
  | nil => intro n p h; simp at h
  | cons x xs ih =>
    intro n p h
    rw [List.enumFrom_cons, List.mem_cons] at h
    rcases h with h | h
    · subst h
      simp
    · obtain ⟨h1, h2⟩ := ih (n + 1) p h
      refine ⟨by omega, ?_⟩
      have : p.1 - n = (p.1 - (n + 1)) + 1 := by omega
      rw [this, List.get?_cons_succ]
      exact h2

theorem findMatches_blocks (entries : List DictEntry) :
    ∀ (aps : List AccentPhrase) (n i : Nat),
      (((aps.enumFrom n).map (fun p =>
          if p.2.moras.isEmpty then []
          else (entries.filter (fun e => e.pronunciation = phrasePronOf p.2.moras)).map
            (fun e => MatchResult.mk e p.1 0 p.2.moras.length))).flatten).filter
        (fun r => r.accentPhraseIndex == i) =
      (if n ≤ i then
        match aps.get? (i - n) with
        | none => []
        | some ap =>
          if ap.moras.isEmpty then []
          else (entries.filter (fun e => e.pronunciation = phrasePronOf ap.moras)).map
            (fun e => MatchResult.mk e i 0 ap.moras.length)
       else []) := by
  intro aps
  induction aps with
  | nil =>
    intro n i
    simp only [List.enumFrom_nil, List.map_nil, List.flatten_nil, List.filter_nil,
      List.get?_nil]
    split <;> rfl
  | cons ap aps ih =>
    intro n i
    rw [List.enumFrom_cons, List.map_cons, List.flatten_cons, List.filter_append, ih (n + 1) i]
    by_cases hni : i = n
    · subst hni
      have hblock :
          (if ap.moras.isEmpty then []
           else (entries.filter (fun e => e.pronunciation = phrasePronOf ap.moras)).map
             (fun e => MatchResult.mk e i 0 ap.moras.length)).filter
            (fun r => r.accentPhraseIndex == i) =
          (if ap.moras.isEmpty then []
           else (entries.filter (fun e => e.pronunciation = phrasePronOf ap.moras)).map
             (fun e => MatchResult.mk e i 0 ap.moras.length)) := by
        apply List.filter_eq_self.mpr
        intro r hr
        split at hr
        · simp at hr
        · obtain ⟨e, _, he⟩ := List.mem_map.mp hr
          subst he
          simp
      rw [hblock]
      rw [if_neg (show ¬ (i + 1 ≤ i) by omega), if_pos (le_refl i)]
      simp only [Nat.sub_self, List.get?_cons_zero]
      simp
    · have hblock :
          (if ap.moras.isEmpty then []
           else (entries.filter (fun e => e.pronunciation = phrasePronOf ap.moras)).map
             (fun e => MatchResult.mk e n 0 ap.moras.length)).filter
            (fun r => r.accentPhraseIndex == i) = [] := by
        apply List.filter_eq_nil_iff.mpr
        intro r hr
        split at hr
        · simp at hr
        · obtain ⟨e, _, he⟩ := List.mem_map.mp hr
          subst he
          simp
          omega
      rw [hblock, List.nil_append]
      by_cases hle : n ≤ i
      · rw [if_pos (show n + 1 ≤ i by omega), if_pos hle]
        have : i - n = (i - (n + 1)) + 1 := by omega
        rw [this, List.get?_cons_succ]
      · rw [if_neg (show ¬ (n + 1 ≤ i) by omega), if_neg hle]

theorem findMatches_mem (q : AudioQuery) (entries : List DictEntry)
    (r : MatchResult) (h : r ∈ findMatches q entries) :
    ∃ ap, q.accentPhrases.get? r.accentPhraseIndex = some ap ∧
      ap.moras ≠ [] ∧ r.entry ∈ entries ∧
      r.entry.pronunciation = phrasePronOf ap.moras ∧
      r.moraStartIndex = 0 ∧ r.moraEndIndex = ap.moras.length := by
  unfold findMatches at h
  split_ifs at h with h1 h2
  · simp at h
  · simp at h
  · obtain ⟨block, hblock, hr⟩ := List.mem_flatten.mp h
    obtain ⟨p, hp, hfp⟩ := List.mem_map.mp hblock
    subst hfp
    by_cases hmor : p.2.moras.isEmpty
    · rw [if_pos hmor] at hr
      simp at hr
    · rw [if_neg hmor] at hr
      obtain ⟨e, he, her⟩ := List.mem_map.mp hr
      obtain ⟨hee, hep⟩ := List.mem_filter.mp he
      subst her
      obtain ⟨_, hget⟩ := mem_enumFrom_get? q.accentPhrases 0 p hp
      refine ⟨p.2, by simpa using hget, ?_, hee, by simpa using hep, rfl, rfl⟩
      intro hc
      rw [hc] at hmor
      exact hmor rfl

/-- C4: in exact mode a segment produces matches exactly for the entries
whose pronunciation equals the segment's concatenated unit transcriptions —
one separate `MatchResult` per such entry, in entry-list order, with unit
range `[0, unit count)` — and no partial containment in either direction
matches (the 8-unit segment ズンダモンチャン never matches ズンダモン). -/
theorem c4_exact_match (q : AudioQuery) (entries : List DictEntry) :
    (∀ i ap, q.accentPhrases.get? i = some ap →
      (findMatches q entries).filter (fun r => r.accentPhraseIndex == i) =
        if ap.moras.isEmpty then []
        else (entries.filter (fun e => e.pronunciation = phrasePronOf ap.moras)).map
          (fun e => MatchResult.mk e i 0 ap.moras.length)) ∧
    (∀ r, r ∈ findMatches q entries →
      ∃ ap, q.accentPhrases.get? r.accentPhraseIndex = some ap ∧
        ap.moras ≠ [] ∧ r.entry ∈ entries ∧
        r.entry.pronunciation = phrasePronOf ap.moras ∧
        r.moraStartIndex = 0 ∧ r.moraEndIndex = ap.moras.length) ∧
    findMatches (mkQuery [['ズ', 'ン', 'ダ', 'モ', 'ン', 'チ', 'ャ', 'ン']])
      [mkEntry zundamonWord zundamonPron none none] = [] := by
  refine ⟨?_, findMatches_mem q entries, by decide⟩
  intro i ap hap
  unfold findMatches
  by_cases h1 : entries.isEmpty
  · rw [if_pos h1]
    have he : entries = [] := by
      cases entries with
      | nil => rfl
      | cons x xs => simp at h1
    subst he
    simp
  · rw [if_neg h1]
    by_cases h2 : q.accentPhrases.isEmpty
    · have he : q.accentPhrases = [] := by
        cases hq : q.accentPhrases with
        | nil => rfl
        | cons x xs => rw [hq] at h2; simp at h2
      rw [he] at hap
      simp at hap
    · rw [if_neg h2]
      have := findMatches_blocks entries q.accentPhrases 0 i
      rw [show q.accentPhrases.enum = q.accentPhrases.enumFrom 0 from rfl]
      rw [this]
      rw [if_pos (Nat.zero_le i), show i - 0 = i from rfl, hap]

/-- Witness for `c4_exact_match`: its whole-segment example instantiated. -/
theorem c4_exact_match_witness :
    findMatches (mkQuery [['ズ', 'ン', 'ダ', 'モ', 'ン', 'チ', 'ャ', 'ン']])
      [mkEntry zundamonWord zundamonPron none none] = [] :=
  (c4_exact_match (mkQuery []) []).2.2

/-! ## C5: source-text filter of partial mode -/

theorem findMatchesWithText_mem (q : AudioQuery) (entries : List DictEntry)
    (text : Str) (r : MatchResult) (h : r ∈ findMatchesWithText q entries text) :
    ∃ ap, q.accentPhrases.get? r.accentPhraseIndex = some ap ∧
      ap.moras ≠ [] ∧ r.entry ∈ entries ∧
      isSubstring r.entry.word text = true ∧
      r.entry.pronunciation ≠ [] ∧
      (r.moraStartIndex, r.moraEndIndex) ∈
        scanEntry (ap.moras.map (fun m => m.text))
          ((ap.moras.map (fun m => m.text)).flatten) r.entry.pronunciation := by
  unfold findMatchesWithText at h
  split_ifs at h with h1 h2
  · simp at h
  · simp at h
  · simp only [] at h
    by_cases h3 : (entries.filter (fun e => isSubstring e.word text)).isEmpty
    · rw [if_pos h3] at h
      simp at h
    · rw [if_neg h3] at h
      obtain ⟨block, hblock, hr⟩ := List.mem_flatten.mp h
      obtain ⟨p, hp, hfp⟩ := List.mem_map.mp hblock
      subst hfp
      by_cases hmor : p.2.moras.isEmpty
      · rw [if_pos hmor] at hr
        simp at hr
      · rw [if_neg hmor] at hr
        obtain ⟨inner, hinner, hri⟩ := List.mem_flatten.mp hr
        obtain ⟨e, he, hei⟩ := List.mem_map.mp hinner
        subst hei
        obtain ⟨hee, hew⟩ := List.mem_filter.mp he
        by_cases hpe : e.pronunciation.isEmpty
        · rw [if_pos hpe] at hri
          simp at hri
        · rw [if_neg hpe] at hri
          obtain ⟨pr, hpr, hre⟩ := List.mem_map.mp hri
          subst hre
          obtain ⟨_, hget⟩ := mem_enumFrom_get? q.accentPhrases 0 p hp
          refine ⟨p.2, by simpa using hget, ?_, hee, hew, ?_, ?_⟩
          · intro hc
            rw [hc] at hmor
            exact hmor rfl
          · intro hc
            rw [hc] at hpe
            exact hpe rfl
          · simpa using hpr

/-- C5: in partial mode an entry whose `word` is not a literal substring of
the source text never yields a match; an empty entry list or empty source
text short-circuits to no matches; and the homophone example
(word ずんだもん against text 隅田門です) yields zero matches even though the
transcription lines up. -/
theorem c5_word_filter (q : AudioQuery) (entries : List DictEntry) (text : Str) :
    (∀ r, r ∈ findMatchesWithText q entries text →
      isSubstring r.entry.word text = true) ∧
    (entries = [] ∨ text = [] → findMatchesWithText q entries text = []) ∧
    findMatchesWithText (mkQuery [['ズ', 'ン', 'ダ', 'モ', 'ン', 'デ', 'ス']])
      [mkEntry zundamonWord zundamonPron none none]
      ['隅', '田', '門', 'で', 'す'] = [] := by
  refine ⟨?_, ?_, by decide⟩
  · intro r hr
    obtain ⟨_, _, _, _, hw, _, _⟩ := findMatchesWithText_mem q entries text r hr
    exact hw
  · intro hc
    unfold findMatchesWithText
    rw [if_pos ?_]
    rcases hc with hc | hc <;> subst hc
    · exact Or.inl rfl
    · exact Or.inr rfl

/-- Witness for `c5_word_filter`: its homophone example instantiated. -/
theorem c5_word_filter_witness :
    findMatchesWithText (mkQuery [['ズ', 'ン', 'ダ', 'モ', 'ン', 'デ', 'ス']])
      [mkEntry zundamonWord zundamonPron none none]
      ['隅', '田', '門', 'で', 'す'] = [] :=
  (c5_word_filter (mkQuery []) [] []).2.2

/-! ## C10: well-formedness of matcher results -/

theorem lt_of_get?_eq_some {α : Type} (l : List α) :
    ∀ (k : Nat) (a : α), l.get? k = some a → k < l.length := by
  induction l with
  | nil => intro k a h; simp at h
  | cons x xs ih =>
    intro k a h
    cases k with
    | zero => simp
    | succ k =>
      have := ih k a (by simpa using h)
      simpa using this

theorem moraStartAux_le (pos : Nat) :
    ∀ (ts : List Str) (i cc : Nat), moraStartAux ts i cc pos ≤ i + ts.length := by
  intro ts
  induction ts with
  | nil => intro i cc; exact Nat.zero_le _
  | cons t ts ih =>
    intro i cc
    simp only [moraStartAux]
    split
    · simp
    · have := ih (i + 1) (cc + t.length)
      simp only [List.length_cons]
      omega

theorem moraEndAux_bounds :
    ∀ (ts : List Str) (i cnt plen me : Nat), me ≤ i →
      me ≤ moraEndAux ts i cnt plen me ∧ moraEndAux ts i cnt plen me ≤ i + ts.length := by
  intro ts
  induction ts with
  | nil =>
    intro i cnt plen me h
    exact ⟨le_refl _, by simpa using h⟩
  | cons t ts ih =>
    intro i cnt plen me h
    simp only [moraEndAux]
    split
    · simp only [List.length_cons]
      omega
    · have := ih (i + 1) (cnt + t.length) plen (i + 1) (le_refl _)
      simp only [List.length_cons]
      omega

theorem scanAux_mem :
    ∀ (n : Nat) (texts : List Str) (s pron : Str) (st : Nat) (pr : Nat × Nat),
      pr ∈ scanAux n texts s pron st →
      pr.1 ≤ pr.2 ∧ pr.2 ≤ texts.length ∧
      ((texts.drop pr.1).take (pr.2 - pr.1)).flatten = pron := by
  intro n
  induction n with
  | zero => intro texts s pron st pr h; simp [scanAux] at h
  | succ n ih =>
    intro texts s pron st pr h
    rw [scanAux] at h
    by_cases hpe : pron.isEmpty
    · rw [if_pos hpe] at h
      simp at h
    · rw [if_neg hpe] at h
      cases hf : strFind s pron st with
      | none =>
        rw [hf] at h
        simp at h
      | some pos =>
        rw [hf] at h
        simp only [] at h
        split at h
        · rcases List.mem_cons.mp h with he | he
          · subst he
            have hms := moraStartAux_le pos texts 0 0
            have hme := moraEndAux_bounds (texts.drop (moraStartOf texts pos))
              (moraStartOf texts pos) 0 pron.length (moraStartOf texts pos) (le_refl _)
            rename_i hmatch
            refine ⟨hme.1, ?_, hmatch⟩
            have hd : (texts.drop (moraStartOf texts pos)).length =
                texts.length - moraStartOf texts pos := List.length_drop _ _
            have hms' : moraStartOf texts pos ≤ texts.length := by
              have := hms
              simpa [moraStartOf] using this
            unfold moraEndOf
            omega
          · exact ih texts s pron (pos + pron.length) pr he
        · exact ih texts s pron (pos + pron.length) pr h

theorem writeStage_error_isCountMismatch (vals? : Option (List ℚ))
    (upd : Mora → ℚ → Mora) (moras : List Mora) (start : Nat) (target : Int)
    (err : OverlayError) (h : writeStage vals? upd moras start target = .error err) :
    err.isCountMismatch = true := by
  by_cases he : vals?.getD [] = []
  · rw [writeStage_ok_of_empty vals? upd moras start target he] at h
    exact Except.noConfusion h
  · by_cases hl : ((vals?.getD []).length : Int) = target
    · rw [writeStage_ok_of_match vals? upd moras start target he hl] at h
      exact Except.noConfusion h
    · rw [writeStage_mismatch vals? upd moras start target he hl] at h
      injection h with h
      subst h
      rfl

theorem applyPartialMatch_valid_error (q : AudioQuery) (e : DictEntry)
    (i s t : Nat) (ap : AccentPhrase)
    (hap : q.accentPhrases.get? i = some ap) (ht : t ≤ ap.moras.length)
    (err : OverlayError)
    (h : applyPartialMatch q e (i : Int) (s : Int) (t : Int) = .error err) :
    err.isCountMismatch = true := by
  have hlen : i < q.accentPhrases.length := lt_of_get?_eq_some q.accentPhrases i ap hap
  have h1 : ¬ ((q.accentPhrases.length : Int) ≤ (i : Int)) := by
    push_neg
    exact_mod_cast hlen
  have hj : pyNorm q.accentPhrases.length (i : Int) = (i : Int) := by
    unfold pyNorm
    rw [if_neg (by omega)]
  have htn : ((i : Int)).toNat = i := by omega
  have hgd : q.accentPhrases.getD i default = ap :=
    getD_of_get? q.accentPhrases i default ap hap
  have hsn : ((s : Int)).toNat = s := by omega
  unfold applyPartialMatch at h
  rw [if_neg h1] at h
  simp only [hj, htn, hgd, hsn] at h
  rw [if_pos (show (0 : Int) ≤ (i : Int) ∧ (i : Int) < (q.accentPhrases.length : Int)
    from ⟨by omega, by omega⟩)] at h
  rw [if_neg (show ¬ ((s : Int) < 0 ∨ (ap.moras.length : Int) < (t : Int)) by
    push_neg
    exact ⟨by omega, by exact_mod_cast ht⟩)] at h
  cases hps : writeStage e.pitchValues setPitch ap.moras s ((t : Int) - (s : Int)) with
  | error e1 =>
    simp only [hps] at h
    injection h with h
    subst h
    exact writeStage_error_isCountMismatch _ _ _ _ _ _ hps
  | ok m1 =>
    simp only [hps] at h
    cases hls : writeStage e.lengthValues setVowelLength m1 s ((t : Int) - (s : Int)) with
    | error e2 =>
      simp only [hls] at h
      injection h with h
      subst h
      exact writeStage_error_isCountMismatch _ _ _ _ _ _ hls
    | ok m2 =>
      simp only [hls] at h
      exact Except.noConfusion h

/-- C10: every `MatchResult` produced by either matcher mode is well-formed —
valid segment index, ordered in-bounds unit range, and the concatenated unit
texts over the range equal the entry's pronunciation — and therefore
`apply_partial_match` on a matcher-produced result against the same query can
only fail with a count-mismatch, never a range error. -/
theorem c10_wellformed (q : AudioQuery) (entries : List DictEntry) (text : Str)
    (r : MatchResult)
    (h : r ∈ findMatches q entries ∨ r ∈ findMatchesWithText q entries text) :
    ∃ ap, q.accentPhrases.get? r.accentPhraseIndex = some ap ∧
      r.accentPhraseIndex < q.accentPhrases.length ∧
      r.moraStartIndex ≤ r.moraEndIndex ∧
      r.moraEndIndex ≤ ap.moras.length ∧
      phrasePronOf ((ap.moras.drop r.moraStartIndex).take
        (r.moraEndIndex - r.moraStartIndex)) = r.entry.pronunciation ∧
      ∀ err, applyPartialMatch q r.entry (r.accentPhraseIndex : Int)
          (r.moraStartIndex : Int) (r.moraEndIndex : Int) = .error err →
        err.isCountMismatch = true := by
  rcases h with h | h
  · obtain ⟨ap, hap, hne, hee, hpron, hs0, hend⟩ := findMatches_mem q entries r h
    refine ⟨ap, hap, lt_of_get?_eq_some _ _ _ hap, ?_, ?_, ?_, ?_⟩
    · rw [hs0]
      exact Nat.zero_le _
    · rw [hend]
    · rw [hs0, hend]
      simp only [List.drop_zero, Nat.sub_zero, List.take_length]
      exact hpron.symm
    · intro err herr
      exact applyPartialMatch_valid_error q r.entry _ _ _ ap hap
        (le_of_eq hend) err herr
  · obtain ⟨ap, hap, hne, hee, hw, hpn, hscan⟩ := findMatchesWithText_mem q entries text r h
    have hmem := scanAux_mem (((ap.moras.map (fun m => m.text)).flatten).length + 1)
      (ap.moras.map (fun m => m.text)) ((ap.moras.map (fun m => m.text)).flatten)
      r.entry.pronunciation 0 (r.moraStartIndex, r.moraEndIndex)
      (by simpa [scanEntry] using hscan)
    obtain ⟨hle, hub, hslice⟩ := hmem
    have hub' : r.moraEndIndex ≤ ap.moras.length := by
      simpa using hub
    refine ⟨ap, hap, lt_of_get?_eq_some _ _ _ hap, hle, hub', ?_, ?_⟩
    · unfold phrasePronOf
      rw [List.map_take, List.map_drop]
      exact hslice
    · intro err herr
      exact applyPartialMatch_valid_error q r.entry _ _ _ ap hap hub' err herr

/-- A concrete matcher result used by the `c10_wellformed` witness. -/
def sampleMatch : MatchResult :=
  ⟨mkEntry zundamonWord zundamonPron none none, 0, 0, 5⟩

/-- Witness for `c10_wellformed` at a concrete exact-mode match. -/
theorem c10_wellformed_witness :
    ∃ ap, (mkQuery [['ズ', 'ン', 'ダ', 'モ', 'ン']]).accentPhrases.get?
        sampleMatch.accentPhraseIndex = some ap ∧
      sampleMatch.accentPhraseIndex <
        (mkQuery [['ズ', 'ン', 'ダ', 'モ', 'ン']]).accentPhrases.length ∧
      sampleMatch.moraStartIndex ≤ sampleMatch.moraEndIndex ∧
      sampleMatch.moraEndIndex ≤ ap.moras.length ∧
      phrasePronOf ((ap.moras.drop sampleMatch.moraStartIndex).take
        (sampleMatch.moraEndIndex - sampleMatch.moraStartIndex)) =
        sampleMatch.entry.pronunciation ∧
      ∀ err, applyPartialMatch (mkQuery [['ズ', 'ン', 'ダ', 'モ', 'ン']])
          sampleMatch.entry (sampleMatch.accentPhraseIndex : Int)
          (sampleMatch.moraStartIndex : Int) (sampleMatch.moraEndIndex : Int) =
          .error err →
        err.isCountMismatch = true :=
  c10_wellformed (mkQuery [['ズ', 'ン', 'ダ', 'モ', 'ン']])
    [mkEntry zundamonWord zundamonPron none none] [] sampleMatch
    (Or.inl (by decide))

/-! ## C6: the reported match count of the synthesis endpoint -/

theorem overlayLoop_applied_le (ms : List MatchResult) :
    ∀ q, (overlayLoop q ms).2.1 ≤ ms.length := by
  induction ms with
  | nil => intro q; simp [overlayLoop]
  | cons m ms ih =>
    intro q
    rw [overlayLoop]
    cases applyPartialMatch q m.entry (m.accentPhraseIndex : Int)
        (m.moraStartIndex : Int) (m.moraEndIndex : Int) with
    | ok q' =>
      simp only [List.length_cons]
      have := ih q'
      omega
    | error e =>
      simp only [List.length_cons]
      have := ih q
      omega

/-- C6 (counterexample): the match count placed in the `X-Matches-Found`
response header is NOT the number of matches actually applied: a matching
entry whose pitch-override length mismatches the matched range is counted in
the header (1) although its overlay failed and was skipped (0 applied). -/
theorem c6_counterexample :
    (synthesizeCore (mkQuery [['ズ', 'ン', 'ダ', 'モ', 'ン']])
      [mkEntry zundamonWord zundamonPron (some [9]) none] zundamonWord).2.1 = 1 ∧
    (synthesizeCore (mkQuery [['ズ', 'ン', 'ダ', 'モ', 'ン']])
      [mkEntry zundamonWord zundamonPron (some [9]) none] zundamonWord).2.2 = 0 ∧
    (synthesizeCore (mkQuery [['ズ', 'ン', 'ダ', 'モ', 'ン']])
      [mkEntry zundamonWord zundamonPron (some [9]) none] zundamonWord).2.1 ≠
    (synthesizeCore (mkQuery [['ズ', 'ン', 'ダ', 'モ', 'ン']])
      [mkEntry zundamonWord zundamonPron (some [9]) none] zundamonWord).2.2 := by
  decide

/-- C6 (amended): the `X-Matches-Found` header reports the number of matches
the matcher found; the number actually applied never exceeds it (failures are
skipped but still counted), and in the single-match success case both are
1. -/
theorem c6_reported_count (q : AudioQuery) (entries : List DictEntry) (text : Str) :
    (synthesizeCore q entries text).2.1 = (findMatchesWithText q entries text).length ∧
    (synthesizeCore q entries text).2.2 ≤ (synthesizeCore q entries text).2.1 ∧
    (synthesizeCore (mkQuery [['ズ', 'ン', 'ダ', 'モ', 'ン']])
      [mkEntry zundamonWord zundamonPron (some [9, 9, 9, 9, 9]) none]
      zundamonWord).2.1 = 1 ∧
    (synthesizeCore (mkQuery [['ズ', 'ン', 'ダ', 'モ', 'ン']])
      [mkEntry zundamonWord zundamonPron (some [9, 9, 9, 9, 9]) none]
      zundamonWord).2.2 = 1 := by
  refine ⟨rfl, ?_, by decide, by decide⟩
  unfold synthesizeCore
  exact overlayLoop_applied_le _ q

/-- Witness for `c6_reported_count`: the single-match success case. -/
theorem c6_reported_count_witness :
    (synthesizeCore (mkQuery [['ズ', 'ン', 'ダ', 'モ', 'ン']])
      [mkEntry zundamonWord zundamonPron (some [9, 9, 9, 9, 9]) none]
      zundamonWord).2.1 = 1 :=
  (c6_reported_count (mkQuery []) [] []).2.2.1

/-! ## C9: fallback behavior of the overlay-only endpoint -/

/-- C9: the overlay-only endpoint returns the original query with zero
matches and no applied entries when the dictionary is empty (and when
nothing matches), and the overlay loop skips a failing match — continuing
with the query as previously modified — while a succeeding match updates the
running query and is recorded. -/
theorem c9_fallback (q : AudioQuery) (entries : List DictEntry) (text : Str) :
    (entries = [] → applyDictionaryCore q entries text = (q, 0, [])) ∧
    (findMatchesWithText q entries text = [] →
      applyDictionaryCore q entries text = (q, 0, [])) ∧
    (∀ q₀ (m : MatchResult) ms err,
      applyPartialMatch q₀ m.entry (m.accentPhraseIndex : Int)
        (m.moraStartIndex : Int) (m.moraEndIndex : Int) = .error err →
      overlayLoop q₀ (m :: ms) = overlayLoop q₀ ms) ∧
    (∀ q₀ (m : MatchResult) ms q₁,
      applyPartialMatch q₀ m.entry (m.accentPhraseIndex : Int)
        (m.moraStartIndex : Int) (m.moraEndIndex : Int) = .ok q₁ →
      overlayLoop q₀ (m :: ms) =
        ((overlayLoop q₁ ms).1, (overlayLoop q₁ ms).2.1 + 1,
          m.entry.word :: (overlayLoop q₁ ms).2.2)) := by
  refine ⟨?_, ?_, ?_, ?_⟩
  · intro he
    subst he
    rfl
  · intro hm
    unfold applyDictionaryCore
    by_cases he : entries.isEmpty
    · rw [if_pos he]
    · rw [if_neg he]
      simp only [hm, overlayLoop, List.length_nil]
  · intro q₀ m ms err herr
    rw [overlayLoop, herr]
  · intro q₀ m ms q₁ hok
    rw [overlayLoop, hok]

/-- Witness for `c9_fallback`: the empty-dictionary fallback at a concrete
query. -/
theorem c9_fallback_witness :
    applyDictionaryCore (mkQuery [['ア']]) [] ['あ'] = (mkQuery [['ア']], 0, []) :=
  (c9_fallback (mkQuery [['ア']]) [] ['あ']).1 rfl

/-! ## C3: partial-mode substring scanning -/

/-- Declarative greedy scan over the plain string: collect the leftmost
occurrence at or after the cursor, then restart just past it.  (Fuelled like
`scanAux`; the wrapper `greedyOccs` supplies the same dominating fuel.) -/
def greedyAux : Nat → Str → Str → Nat → List Nat
  | 0, _, _, _ => []
  | n + 1, s, pat, st =>
    match strFind s pat st with
    | none => []
    | some p => p :: greedyAux n s pat (p + pat.length)

/-- The left-to-right non-overlapping occurrence positions of `pat` in `s`. -/
def greedyOccs (s pat : Str) : List Nat := greedyAux (s.length + 1) s pat 0

theorem greedyAux_mem :
    ∀ (n : Nat) (s pat : Str) (st p : Nat), p ∈ greedyAux n s pat st →
      st ≤ p ∧ OccursAt s pat p := by
  intro n
  induction n with
  | zero => intro s pat st p h; simp [greedyAux] at h
  | succ n ih =>
    intro s pat st p h
    rw [greedyAux] at h
    cases hf : strFind s pat st with
    | none => rw [hf] at h; simp at h
    | some pos =>
      rw [hf] at h
      obtain ⟨hge, _, hocc⟩ := strFind_some_spec s pat st pos hf
      rcases List.mem_cons.mp h with he | he
      · subst he
        exact ⟨hge, hocc⟩
      · obtain ⟨hge', hocc'⟩ := ih s pat (pos + pat.length) p he
        exact ⟨by omega, hocc'⟩

theorem greedyAux_chain :
    ∀ (n : Nat) (s pat : Str) (st : Nat),
      List.Chain' (fun a b => a + pat.length ≤ b) (greedyAux n s pat st) := by
  intro n
  induction n with
  | zero => intro s pat st; simp [greedyAux]
  | succ n ih =>
    intro s pat st
    rw [greedyAux]
    cases hf : strFind s pat st with
    | none => simp
    | some pos =>
      rw [List.chain'_cons']
      refine ⟨?_, ih s pat (pos + pat.length)⟩
      intro b hb
      have hbm : b ∈ greedyAux n s pat (pos + pat.length) :=
        List.mem_of_mem_head? hb
      exact (greedyAux_mem n s pat (pos + pat.length) b hbm).1

theorem occursAt_le (s pat : Str) (u : Nat) (hp : pat ≠ [])
    (h : OccursAt s pat u) : u + pat.length ≤ s.length := by
  unfold OccursAt at h
  have hlen := congrArg List.length h
  rw [List.length_take, List.length_drop] at hlen
  have hpos : 0 < pat.length := List.length_pos.mpr hp
  omega

theorem greedyAux_complete :
    ∀ (n : Nat) (s pat : Str) (st u : Nat), pat ≠ [] →
      s.length + 1 - st ≤ n → st ≤ u → OccursAt s pat u →
      ∃ g ∈ greedyAux n s pat st, g ≤ u ∧ u < g + pat.length := by
  intro n
  induction n with
  | zero =>
    intro s pat st u hp hn hu hocc
    have := occursAt_le s pat u hp hocc
    have hpos : 0 < pat.length := List.length_pos.mpr hp
    omega
  | succ n ih =>
    intro s pat st u hp hn hu hocc
    have hul := occursAt_le s pat u hp hocc
    have hpos : 0 < pat.length := List.length_pos.mpr hp
    rw [greedyAux]
    cases hf : strFind s pat st with
    | none =>
      exact absurd hocc (strFind_none_spec s pat st hf u hu hul)
    | some pos =>
      obtain ⟨hge, hle, _⟩ := strFind_some_spec s pat st pos hf
      by_cases hcase : u < pos + pat.length
      · have hmin := strFind_some_min s pat st pos hf u hu hocc
        exact ⟨pos, List.mem_cons_self _ _, hmin, hcase⟩
      · obtain ⟨g, hg, hgu⟩ := ih s pat (pos + pat.length) u hp (by omega)
          (by omega) hocc
        exact ⟨g, List.mem_cons_of_mem _ hg, hgu⟩

theorem singles_flatten_length (texts : List Str)
    (h : ∀ t ∈ texts, t.length = 1) : texts.flatten.length = texts.length := by
  induction texts with
  | nil => rfl
  | cons t ts ih =>
    rw [List.flatten_cons, List.length_append, List.length_cons,
      ih (fun t ht => h t (List.mem_cons_of_mem _ ht)),
      h t (List.mem_cons_self _ _)]
    omega

theorem singles_slice (texts : List Str) (h : ∀ t ∈ texts, t.length = 1) :
    ∀ (a b : Nat), ((texts.drop a).take b).flatten = (texts.flatten.drop a).take b := by
  induction texts with
  | nil => intro a b; simp
  | cons t ts ih =>
    intro a b
    have ht1 : t.length = 1 := h t (List.mem_cons_self _ _)
    have hts : ∀ u ∈ ts, u.length = 1 := fun u hu => h u (List.mem_cons_of_mem _ hu)
    obtain ⟨c, hc⟩ : ∃ c, t = [c] := by
      cases t with
      | nil => simp at ht1
      | cons c cs =>
        cases cs with
        | nil => exact ⟨c, rfl⟩
        | cons d ds => simp at ht1
    subst hc
    cases a with
    | zero =>
      cases b with
      | zero => simp
      | succ b =>
        simp only [List.drop_zero, List.flatten_cons, List.singleton_append,
          List.take_succ_cons]
        have := ih hts 0 b
        simp only [List.drop_zero] at this
        rw [this]
    | succ a =>
      simp only [List.drop_succ_cons, List.flatten_cons, List.singleton_append]
      exact ih hts a b

theorem moraStartAux_singles :
    ∀ (ts : List Str) (i pos : Nat), (∀ t ∈ ts, t.length = 1) →
      i ≤ pos → pos < i + ts.length → moraStartAux ts i i pos = pos := by
  intro ts
  induction ts with
  | nil =>
    intro i pos _ h1 h2
    simp only [List.length_nil] at h2
    omega
  | cons t ts ih =>
    intro i pos h h1 h2
    have ht1 : t.length = 1 := h t (List.mem_cons_self _ _)
    have hts : ∀ u ∈ ts, u.length = 1 := fun u hu => h u (List.mem_cons_of_mem _ hu)
    rw [moraStartAux]
    by_cases he : i = pos
    · rw [if_pos he]
      exact he
    · rw [if_neg he, ht1]
      exact ih (i + 1) pos hts (by omega)
        (by simp only [List.length_cons] at h2; omega)

theorem moraStartOf_singles (texts : List Str) (pos : Nat)
    (h : ∀ t ∈ texts, t.length = 1) (hpos : pos < texts.length) :
    moraStartOf texts pos = pos :=
  moraStartAux_singles texts 0 pos h (Nat.zero_le _) (by omega)

theorem moraEndAux_singles :
    ∀ (ts : List Str) (i cnt plen me : Nat), (∀ t ∈ ts, t.length = 1) →
      cnt < plen → plen - cnt ≤ ts.length →
      moraEndAux ts i cnt plen me = i + (plen - cnt) := by
  intro ts
  induction ts with
  | nil =>
    intro i cnt plen me _ h1 h2
    simp only [List.length_nil] at h2
    omega
  | cons t ts ih =>
    intro i cnt plen me h h1 h2
    have ht1 : t.length = 1 := h t (List.mem_cons_self _ _)
    have hts : ∀ u ∈ ts, u.length = 1 := fun u hu => h u (List.mem_cons_of_mem _ hu)
    rw [moraEndAux, ht1]
    by_cases he : plen ≤ cnt + 1
    · rw [if_pos he]
      omega
    · rw [if_neg he]
      rw [ih (i + 1) (cnt + 1) plen (i + 1) hts (by omega)
        (by simp only [List.length_cons] at h2; omega)]
      omega

theorem moraEndOf_singles (texts : List Str) (pos plen : Nat)
    (h : ∀ t ∈ texts, t.length = 1) (hp : 0 < plen)
    (hb : pos + plen ≤ texts.length) :
    moraEndOf texts pos plen = pos + plen := by
  unfold moraEndOf
  rw [moraEndAux_singles (texts.drop pos) pos 0 plen pos
    (fun t ht => h t (List.mem_of_mem_drop ht)) hp
    (by rw [List.length_drop]; omega)]
  omega

theorem scanAux_singles_eq :
    ∀ (n : Nat) (texts : List Str) (pron : Str) (st : Nat),
      (∀ t ∈ texts, t.length = 1) → pron ≠ [] →
      scanAux n texts texts.flatten pron st =
        (greedyAux n texts.flatten pron st).map (fun p => (p, p + pron.length)) := by
  intro n
  induction n with
  | zero => intro texts pron st _ _; rfl
  | succ n ih =>
    intro texts pron st h hpn
    rw [scanAux, greedyAux]
    rw [isEmpty_false_of_ne pron hpn]
    simp only [Bool.false_eq_true, if_false]
    cases hf : strFind texts.flatten pron st with
    | none => rfl
    | some pos =>
      obtain ⟨hge, hle, hocc⟩ := strFind_some_spec texts.flatten pron st pos hf
      have hfl := singles_flatten_length texts h
      have hplen : 0 < pron.length := List.length_pos.mpr hpn
      have hms : moraStartOf texts pos = pos :=
        moraStartOf_singles texts pos h (by omega)
      have hme : moraEndOf texts pos pron.length = pos + pron.length :=
        moraEndOf_singles texts pos pron.length h hplen (by omega)
      simp only [hms, hme]
      have harith : pos + pron.length - pos = pron.length := by omega
      rw [harith]
      rw [singles_slice texts h pos pron.length]
      unfold OccursAt at hocc
      rw [if_pos hocc, List.map_cons]
      rw [ih texts pron (pos + pron.length) h hpn]

/-- A query whose first unit has the two-character transcription キャ. -/
def kyaQuery : AudioQuery :=
  ⟨[⟨[⟨['キ', 'ャ'], none, none, ['a'], 1, 5⟩, ⟨['ン'], none, none, ['a'], 1, 5⟩],
      1, none, false⟩],
    1, 0, 1, 1, 1, 1, 24000, false, []⟩

/-- C3 (counterexample): an occurrence of the pronunciation as an exact
substring of the segment's concatenated transcription does NOT always
produce a match: with unit texts `["キャ", "ン"]` the string ャン occurs at
character position 1 of キャン (and the entry survives the word filter), but
the occurrence starts mid-unit, the reconstruction check fails, and the scan
yields no match at all. -/
theorem c3_counterexample :
    phrasePronOf (kyaQuery.accentPhrases.getD 0 default).moras = ['キ', 'ャ', 'ン'] ∧
    OccursAt ['キ', 'ャ', 'ン'] ['ャ', 'ン'] 1 ∧
    isSubstring ['a'] ['a'] = true ∧
    findMatchesWithText kyaQuery [mkEntry ['a'] ['ャ', 'ン'] none none] ['a'] = [] := by
  decide

/-- A query whose third unit has the three-character transcription ガアイ,
so the pronunciation アイ also occurs mid-unit at character position 3. -/
def gaaiQuery : AudioQuery :=
  ⟨[⟨[⟨['ア'], none, none, ['a'], 1, 5⟩, ⟨['イ'], none, none, ['a'], 1, 5⟩,
      ⟨['ガ', 'ア', 'イ'], none, none, ['a'], 1, 5⟩], 1, none, false⟩],
    1, 0, 1, 1, 1, 1, 24000, false, []⟩

/-- C3 (amended): when every unit's transcription in the query is a single
character — so every occurrence is aligned to unit boundaries — partial-mode
matching produces exactly one match per greedy left-to-right non-overlapping
occurrence of each surviving entry's pronunciation in each segment, with
unit range `[g, g + |pronunciation|)`, in segment order, then entry-list
order, then left-to-right text order; `greedyOccs` really is the greedy
non-overlapping occurrence list (soundness, completeness over disjoint
occurrences, and separation), and the spec's two examples hold.  With
multi-character unit transcriptions the per-occurrence behavior is
unreliable in both directions: a mid-unit occurrence can yield no match
(`c3_counterexample`) or, through the `mora_start = 0` fallback of the
conversion loop, a spurious duplicate of an earlier range — the final
conjunct shows units ア, イ, ガアイ against pronunciation アイ producing the
range `[0, 2)` twice. -/
theorem c3_aligned_scan (q : AudioQuery) (entries : List DictEntry) (text : Str)
    (hq : ∀ ap ∈ q.accentPhrases, ∀ m ∈ ap.moras, m.text.length = 1) :
    (findMatchesWithText q entries text =
      (if entries.isEmpty ∨ text.isEmpty then []
       else if q.accentPhrases.isEmpty then []
       else if (entries.filter (fun e => isSubstring e.word text)).isEmpty then []
       else
         (q.accentPhrases.enum.map (fun p =>
           if p.2.moras.isEmpty then []
           else
             ((entries.filter (fun e => isSubstring e.word text)).map (fun e =>
               if e.pronunciation.isEmpty then []
               else
                 (greedyOccs (phrasePronOf p.2.moras) e.pronunciation).map
                   (fun g =>
                     MatchResult.mk e p.1 g (g + e.pronunciation.length)))).flatten)).flatten)) ∧
    (∀ s pat p, p ∈ greedyOccs s pat → OccursAt s pat p) ∧
    (∀ s pat u, pat ≠ [] → OccursAt s pat u →
      ∃ g ∈ greedyOccs s pat, g ≤ u ∧ u < g + pat.length) ∧
    (∀ s pat, List.Chain' (fun a b => a + pat.length ≤ b) (greedyOccs s pat)) ∧
    ((findMatchesWithText (mkQuery [['ズ', 'ン', 'ダ', 'モ', 'ン', 'デ', 'ス']])
        [mkEntry zundamonWord zundamonPron none none]
        ['ず', 'ん', 'だ', 'も', 'ん', 'で', 'す']).map
      (fun r => (r.accentPhraseIndex, r.moraStartIndex, r.moraEndIndex)) =
      [(0, 0, 5)]) ∧
    ((findMatchesWithText
        (mkQuery [['ズ', 'ン', 'ダ', 'モ', 'ン', 'ト', 'ズ', 'ン', 'ダ', 'モ', 'ン']])
        [mkEntry zundamonWord zundamonPron none none]
        ['ず', 'ん', 'だ', 'も', 'ん', 'a']).map
      (fun r => (r.moraStartIndex, r.moraEndIndex)) = [(0, 5), (6, 11)]) ∧
    ((findMatchesWithText gaaiQuery [mkEntry ['a'] ['ア', 'イ'] none none] ['a']).map
      (fun r => (r.moraStartIndex, r.moraEndIndex)) = [(0, 2), (0, 2)]) := by
  refine ⟨?_, ?_, ?_, ?_, by decide, by decide, by decide⟩
  · unfold findMatchesWithText
    by_cases h1 : entries.isEmpty ∨ text.isEmpty
    · rw [if_pos h1, if_pos h1]
    · rw [if_neg h1, if_neg h1]
      by_cases h2 : q.accentPhrases.isEmpty
      · rw [if_pos h2, if_pos h2]
      · rw [if_neg h2, if_neg h2]
        simp only []
        by_cases h3 : (entries.filter (fun e => isSubstring e.word text)).isEmpty
        · rw [if_pos h3, if_pos h3]
        · rw [if_neg h3, if_neg h3]
          refine congrArg List.flatten (List.map_congr_left ?_)
          intro p hp
          have hget := (mem_enumFrom_get? q.accentPhrases 0 p (by simpa using hp)).2
          simp only [Nat.sub_zero] at hget
          have hap : p.2 ∈ q.accentPhrases := List.get?_mem hget
          have hsingles : ∀ t ∈ p.2.moras.map (fun m => m.text), t.length = 1 := by
            intro t ht
            obtain ⟨m, hm, hmt⟩ := List.mem_map.mp ht
            rw [← hmt]
            exact hq p.2 hap m hm
          by_cases hm : p.2.moras.isEmpty
          · rw [if_pos hm, if_pos hm]
          · rw [if_neg hm, if_neg hm]
            refine congrArg List.flatten (List.map_congr_left ?_)
            intro e he
            by_cases hpe : e.pronunciation.isEmpty
            · rw [if_pos hpe, if_pos hpe]
            · rw [if_neg hpe, if_neg hpe]
              have hpne : e.pronunciation ≠ [] := by
                intro hc
                rw [hc] at hpe
                exact hpe rfl
              rw [show scanEntry (p.2.moras.map (fun m => m.text))
                  ((p.2.moras.map (fun m => m.text)).flatten) e.pronunciation =
                scanAux (((p.2.moras.map (fun m => m.text)).flatten).length + 1)
                  (p.2.moras.map (fun m => m.text))
                  ((p.2.moras.map (fun m => m.text)).flatten) e.pronunciation 0 from rfl]
              rw [scanAux_singles_eq _ _ _ 0 hsingles hpne]
              rw [List.map_map]
              rfl
  · intro s pat p hp
    exact (greedyAux_mem _ s pat 0 p hp).2
  · intro s pat u hp hocc
    exact greedyAux_complete (s.length + 1) s pat 0 u hp (by omega) (Nat.zero_le _) hocc
  · intro s pat
    exact greedyAux_chain _ s pat 0

/-- Witness for `c3_aligned_scan`: the single-segment example instantiated. -/
theorem c3_aligned_scan_witness :
    (findMatchesWithText (mkQuery [['ズ', 'ン', 'ダ', 'モ', 'ン', 'デ', 'ス']])
        [mkEntry zundamonWord zundamonPron none none]
        ['ず', 'ん', 'だ', 'も', 'ん', 'で', 'す']).map
      (fun r => (r.accentPhraseIndex, r.moraStartIndex, r.moraEndIndex)) =
      [(0, 0, 5)] :=
  (c3_aligned_scan (mkQuery [['ズ', 'ン', 'ダ', 'モ', 'ン', 'デ', 'ス']])
    [mkEntry zundamonWord zundamonPron none none]
    ['ず', 'ん', 'だ', 'も', 'ん', 'で', 'す'] (by decide)).2.2.2.2.1
